import Mathlib

/-!
Verification of the price-banding core of `src/app.py`.

The repository's only original algorithmic logic is the pair of functions
`criar_faixas_preco` (the band builder, src/app.py lines 82-154) and
`obter_faixa_preco` (the row classifier, src/app.py lines 175-183).  Both are
shallowly embedded below: Python floats are modelled as rationals (`ℚ`), the
Python literal `0.2` as the exact rational `1/5` (which is what `0.2 : ℚ`
denotes), and fallible Python code is modelled in `Option`, where `none`
stands for a raised exception (`ValueError` from `min([])`,
`ZeroDivisionError` from `abs(p - 0) / 0`, `IndexError` from indexing an
empty list).  Sets of floats (`valores_processados`) are modelled as lists
used only through membership.
-/

/-- A price band, as built by `criar_faixas_preco`: the Python dict
`{"nome": ..., "min": ..., "max": ..., "valores": ...}`.  The `descricao` and
`label` fields added afterwards (src/app.py lines 165-170) are deterministic
functions of `min` and `max` and carry no extra information. -/
structure Faixa where
  nome : String
  min : ℚ
  max : ℚ
  valores : List ℚ
  deriving DecidableEq, Repr

/-- Python `sorted(precos)` (src/app.py line 92): sort ascending.  (Any
correct sort is the same function on `List ℚ`; insertion sort is used so
that the kernel can evaluate it on concrete inputs.) -/
def sortQ (l : List ℚ) : List ℚ := l.insertionSort (· ≤ ·)

/-- Python `abs(x)`, written so that the kernel can evaluate it on concrete
rationals (it agrees with Mathlib's `|x|`, see `absQ_eq_abs`). -/
def absQ (q : ℚ) : ℚ := if q < 0 then -q else q

theorem absQ_eq_abs (q : ℚ) : absQ q = |q| := by
  unfold absQ
  rcases lt_or_ge q 0 with h | h
  · rw [if_pos h, abs_of_neg h]
  · rw [if_neg (not_lt.mpr h), abs_of_nonneg h]

/-- Python `abs(p - preco) / preco <= 0.2` (src/app.py line 104), for an
anchor `v ≠ 0` (the `v = 0` case raises and is handled by the caller). -/
def similar (v p : ℚ) : Bool := decide (absQ (p - v) / v ≤ (0.2 : ℚ))

/-- The small-sample loop of `criar_faixas_preco` (src/app.py lines 95-115):
iterate the sorted prices; skip anchors already claimed; otherwise collect
from the *original* sample every value within 20% relative tolerance of the
anchor, emit it as a band, and claim those values.  `none` models the
`ZeroDivisionError` Python raises when the anchor is `0`. -/
def smallGo (precos : List ℚ) (claimed : List ℚ) (k : ℕ) :
    List ℚ → Option (List Faixa)
  | [] => some []
  | v :: rest =>
    if v ∈ claimed then
      smallGo precos claimed k rest
    else if v = 0 then
      none
    else
      let sims := precos.filter (similar v)
      if sims.isEmpty then
        smallGo precos claimed k rest
      else
        match List.min? sims, List.max? sims with
        | some mn, some mx =>
          match smallGo precos (claimed ++ sims) (k + 1) rest with
          | some fs => some (⟨"Faixa " ++ toString (k + 1), mn, mx, sims⟩ :: fs)
          | none => none
        | _, _ => none

/-- Python `(atual - anterior) / anterior if anterior > 0 else 0`
(src/app.py line 127). -/
def gapRel (anterior atual : ℚ) : ℚ :=
  if 0 < anterior then (atual - anterior) / anterior else 0

/-- The large-sample loop of `criar_faixas_preco` (src/app.py lines 118-152),
rendered as structural recursion over the remaining sorted prices:
`faixa_atual` is the open run, `anterior` the previous sorted value, and a
run is closed whenever the relative gap exceeds `1.0`.  Returns the list of
runs in order; the final (always non-empty) run is flushed at the end. -/
def gapSplit (anterior : ℚ) (faixa_atual : List ℚ) : List ℚ → List (List ℚ)
  | [] => [faixa_atual]
  | atual :: rest =>
    if 1 < gapRel anterior atual then
      faixa_atual :: gapSplit atual [atual] rest
    else
      gapSplit atual (faixa_atual ++ [atual]) rest

/-- Turn the runs produced by `gapSplit` into bands, naming them
`"Faixa {len(faixas) + 1}"` in order of finalisation, with
`min = inicio_faixa` (the run's first value) and `max = faixa_atual[-1]`
(the run's last value), exactly as src/app.py lines 132-152 do. -/
def nomeFaixas (k : ℕ) : List (List ℚ) → List Faixa
  | [] => []
  | c :: cs =>
    ⟨"Faixa " ++ toString (k + 1), c.headD 0, c.getLastD 0, c⟩ :: nomeFaixas (k + 1) cs

/-- `criar_faixas_preco(precos, agente)` (src/app.py lines 82-154).  Note the
`agente` parameter is accepted but never used by the Python function body.
`none` models a raised exception: `min([])` on an empty sample, or the
small-sample path's division by a zero anchor. -/
def criar_faixas_preco (precos : List ℚ) (agente : String) : Option (List Faixa) :=
  if precos.length ≤ 1 then
    match List.min? precos, List.max? precos with
    | some mn, some mx => some [⟨"Faixa Única", mn, mx, precos⟩]
    | _, _ => none
  else
    let precos_ordenados := sortQ precos
    if precos.length ≤ 10 then
      smallGo precos [] 0 precos_ordenados
    else
      match precos_ordenados with
      | [] => none
      | p₀ :: rest => some (nomeFaixas 0 (gapSplit p₀ [p₀] rest))

/-- Python `faixa['min'] <= preco <= faixa['max']` (src/app.py line 181). -/
def contemPreco (preco : ℚ) (f : Faixa) : Bool :=
  decide (f.min ≤ preco ∧ preco ≤ f.max)

/-- `obter_faixa_preco` (src/app.py lines 175-183): look the agent up in the
band table, scan its bands in stored order, return the name of the first
band whose closed interval contains the price, else the sentinel
`"Sem Faixa"`.  The Python function is total (no exception paths), so the
embedding returns `String` directly. -/
def obter_faixa_preco (faixas_por_agente : List (String × List Faixa))
    (agente : String) (preco : ℚ) : String :=
  match faixas_por_agente.lookup agente with
  | some faixas =>
    match faixas.find? (contemPreco preco) with
    | some f => f.nome
    | none => "Sem Faixa"
  | none => "Sem Faixa"

/-- C1 (counterexample): the claim says an agent whose identifier contains
"methylobacterium" always gets exactly one band spanning the full observed
range.  For the identifier "methylobacterium" itself (which trivially
contains the substring, case-insensitively) and prices `[1, 100]`, the code
instead takes the ordinary small-sample path and returns two bands, neither
spanning `[1, 100]`. -/
theorem C1_counterexample :
    criar_faixas_preco [1, 100] "methylobacterium" =
      some [⟨"Faixa 1", 1, 1, [1]⟩, ⟨"Faixa 2", 100, 100, [100]⟩] ∧
    (criar_faixas_preco [1, 100] "methylobacterium").map List.length ≠ some 1 := by
  with_unfolding_all decide

/-- C1 (amended): `criar_faixas_preco` contains no agent-based override at
all — its `agente` parameter is unused, so every agent identifier (including
any containing "methylobacterium") is banded by the same size-dependent
paths; the result is independent of the agent identifier. -/
theorem C1_amended_theorem :
    ∀ (precos : List ℚ) (a b : String),
      criar_faixas_preco precos a = criar_faixas_preco precos b :=
  fun _ _ _ => rfl

/-- C2 (code evaluation at the failing input): on prices `[10, 12, 14]` the
small-sample path computes each anchor's similarity set over the whole
original sample, never excluding already-claimed values, so the value `12`
is a member of both returned bands — the bands are not pairwise disjoint. -/
theorem C2_code_eval :
    criar_faixas_preco [10, 12, 14] "X" =
      some [⟨"Faixa 1", 10, 12, [10, 12]⟩, ⟨"Faixa 2", 12, 14, [12, 14]⟩] ∧
    (12 : ℚ) ∈ (⟨"Faixa 1", 10, 12, [10, 12]⟩ : Faixa).valores ∧
    (12 : ℚ) ∈ (⟨"Faixa 2", 12, 14, [12, 14]⟩ : Faixa).valores := by
  with_unfolding_all decide

/-- C3 (code evaluation at the failing input): on prices `[0, 5]` the
small-sample path takes `0` as its first anchor and evaluates
`abs(p - 0) / 0`, raising `ZeroDivisionError` (modelled as `none`); the
code does not produce a defined band list. -/
theorem C3_code_eval : criar_faixas_preco [0, 5] "X" = none := by
  with_unfolding_all decide

/-- C4 (counterexample): the claim says every observed price is a member of
exactly one band.  On prices `[5, 6, 7]` the small-sample path puts `6` in
the member lists of both returned bands. -/
theorem C4_counterexample :
    criar_faixas_preco [5, 6, 7] "X" =
      some [⟨"Faixa 1", 5, 6, [5, 6]⟩, ⟨"Faixa 2", 6, 7, [6, 7]⟩] ∧
    (6 : ℚ) ∈ (⟨"Faixa 1", 5, 6, [5, 6]⟩ : Faixa).valores ∧
    (6 : ℚ) ∈ (⟨"Faixa 2", 6, 7, [6, 7]⟩ : Faixa).valores := by
  with_unfolding_all decide

/-- C5 (counterexample): the claim says an empty price list yields an empty
band sequence without raising; the code instead evaluates `min([])`, which
raises `ValueError` (modelled as `none`), so it does not return `some []`. -/
theorem C5_counterexample :
    criar_faixas_preco [] "Agente" = none ∧
    criar_faixas_preco [] "Agente" ≠ some [] := by
  with_unfolding_all decide

/-- C5 (amended): called with an empty price list, `criar_faixas_preco`
raises (Python `min` of an empty sequence, modelled as `none`) for every
agent, rather than returning an empty band sequence. -/
theorem C5_amended_theorem :
    ∀ agente : String, criar_faixas_preco [] agente = none :=
  fun _ => rfl

/-- C6: agent "Bacillus" with prices `[11, 13, 21, 386, 13667]` takes the
small-sample path and yields exactly the four pairwise-disjoint bands
`Faixa 1 [11,13]` (members {11,13}), `Faixa 2 [21,21]`, `Faixa 3 [386,386]`,
`Faixa 4 [13667,13667]`; classifying price `13` against that band table
returns the name of the first band, "Faixa 1". -/
theorem C6_theorem :
    criar_faixas_preco [11, 13, 21, 386, 13667] "Bacillus" =
      some [⟨"Faixa 1", 11, 13, [11, 13]⟩, ⟨"Faixa 2", 21, 21, [21]⟩,
            ⟨"Faixa 3", 386, 386, [386]⟩, ⟨"Faixa 4", 13667, 13667, [13667]⟩] ∧
    List.Pairwise (fun f g : Faixa => ∀ x ∈ f.valores, x ∉ g.valores)
      [⟨"Faixa 1", 11, 13, [11, 13]⟩, ⟨"Faixa 2", 21, 21, [21]⟩,
       ⟨"Faixa 3", 386, 386, [386]⟩, ⟨"Faixa 4", 13667, 13667, [13667]⟩] ∧
    obter_faixa_preco
      [("Bacillus",
        [⟨"Faixa 1", 11, 13, [11, 13]⟩, ⟨"Faixa 2", 21, 21, [21]⟩,
         ⟨"Faixa 3", 386, 386, [386]⟩, ⟨"Faixa 4", 13667, 13667, [13667]⟩])]
      "Bacillus" 13 = "Faixa 1" := by
  refine ⟨?_, ?_, ?_⟩
  · norm_num [criar_faixas_preco, smallGo, sortQ, List.insertionSort,
      List.orderedInsert, similar, absQ]
    decide
  · with_unfolding_all decide
  · with_unfolding_all decide

/-- `contemPreco` decodes to the interval condition. -/
theorem contemPreco_eq_true {p : ℚ} {f : Faixa} :
    contemPreco p f = true ↔ (f.min ≤ p ∧ p ≤ f.max) := by
  simp [contemPreco]

/-- If every band before `f` fails the interval test and `f` passes it, the
scan finds `f` first. -/
theorem find?_first_contem (p : ℚ) :
    ∀ (l1 : List Faixa) (f : Faixa) (l2 : List Faixa),
      (∀ g ∈ l1, ¬(g.min ≤ p ∧ p ≤ g.max)) → f.min ≤ p → p ≤ f.max →
      (l1 ++ f :: l2).find? (contemPreco p) = some f
  | [], f, l2, _, h1, h2 => by
    rw [List.nil_append]
    exact List.find?_cons_of_pos _ (contemPreco_eq_true.mpr ⟨h1, h2⟩)
  | g :: l1, f, l2, hall, h1, h2 => by
    rw [List.cons_append]
    rw [List.find?_cons_of_neg]
    · exact find?_first_contem p l1 f l2
        (fun x hx => hall x (List.mem_cons_of_mem _ hx)) h1 h2
    · simpa [contemPreco_eq_true] using hall g (List.mem_cons_self _ _)

/-- Unfolding equation: absent agent. -/
theorem obter_lookup_none {t : List (String × List Faixa)} {a : String}
    (p : ℚ) (h : t.lookup a = none) : obter_faixa_preco t a p = "Sem Faixa" := by
  unfold obter_faixa_preco
  rw [h]

/-- Unfolding equation: agent present, a band found. -/
theorem obter_found {t : List (String × List Faixa)} {a : String} {p : ℚ}
    {fs : List Faixa} {f : Faixa} (h : t.lookup a = some fs)
    (h2 : fs.find? (contemPreco p) = some f) :
    obter_faixa_preco t a p = f.nome := by
  unfold obter_faixa_preco
  rw [h]
  show (match fs.find? (contemPreco p) with
    | some f => f.nome
    | none => "Sem Faixa") = f.nome
  rw [h2]

/-- Unfolding equation: agent present, no band found. -/
theorem obter_notfound {t : List (String × List Faixa)} {a : String} {p : ℚ}
    {fs : List Faixa} (h : t.lookup a = some fs)
    (h2 : fs.find? (contemPreco p) = none) :
    obter_faixa_preco t a p = "Sem Faixa" := by
  unfold obter_faixa_preco
  rw [h]
  show (match fs.find? (contemPreco p) with
    | some f => f.nome
    | none => "Sem Faixa") = "Sem Faixa"
  rw [h2]

/-- C8: the row classifier scans the agent's bands in stored order and
returns the name of the first band whose closed interval `[min, max]`
contains the price (inclusive on both ends); if the agent is absent from
the table, or no band's interval contains the price, it returns the
sentinel `"Sem Faixa"`.  The embedded function is total (`String`-valued),
mirroring that the Python code has no exception path, so every row gets
some label. -/
theorem C8_theorem (t : List (String × List Faixa)) (a : String) (p : ℚ) :
    (t.lookup a = none → obter_faixa_preco t a p = "Sem Faixa") ∧
    (∀ fs, t.lookup a = some fs →
      ((∀ f ∈ fs, ¬(f.min ≤ p ∧ p ≤ f.max)) →
        obter_faixa_preco t a p = "Sem Faixa") ∧
      (∀ l1 f l2, fs = l1 ++ f :: l2 →
        (∀ g ∈ l1, ¬(g.min ≤ p ∧ p ≤ g.max)) → f.min ≤ p → p ≤ f.max →
        obter_faixa_preco t a p = f.nome)) := by
  constructor
  · intro h
    exact obter_lookup_none p h
  · intro fs h
    constructor
    · intro hall
      have hnone : fs.find? (contemPreco p) = none :=
        List.find?_eq_none.mpr fun x hx => by
          simpa [contemPreco_eq_true] using hall x hx
      exact obter_notfound h hnone
    · intro l1 f l2 hfs hall h1 h2
      exact obter_found h (hfs ▸ find?_first_contem p l1 f l2 hall h1 h2)

/-- C8 witness: a concrete table where the second band is the first match. -/
theorem C8_witness :
    obter_faixa_preco
      [("A", [⟨"Faixa 1", 0, 1, [0, 1]⟩, ⟨"Faixa 2", 5, 6, [5, 6]⟩])]
      "A" 5 = "Faixa 2" :=
  ((C8_theorem [("A", [⟨"Faixa 1", 0, 1, [0, 1]⟩, ⟨"Faixa 2", 5, 6, [5, 6]⟩])]
      "A" 5).2
    [⟨"Faixa 1", 0, 1, [0, 1]⟩, ⟨"Faixa 2", 5, 6, [5, 6]⟩] rfl).2
    [⟨"Faixa 1", 0, 1, [0, 1]⟩] ⟨"Faixa 2", 5, 6, [5, 6]⟩ [] rfl
    (by with_unfolding_all decide) (by with_unfolding_all decide)
    (by with_unfolding_all decide)

/-- The part of a band the row classifier can observe: its name and its
interval endpoints — not its member list. -/
def faixaShape (f : Faixa) : String × ℚ × ℚ := (f.nome, f.min, f.max)

/-- Scanning two band lists that agree on names and intervals (members may
differ arbitrarily) finds bands with the same name. -/
theorem find?_shape (p : ℚ) :
    ∀ (fs fs' : List Faixa), fs.map faixaShape = fs'.map faixaShape →
      Option.map Faixa.nome (fs.find? (contemPreco p)) =
        Option.map Faixa.nome (fs'.find? (contemPreco p))
  | [], [], _ => rfl
  | [], _ :: _, h => by simp at h
  | _ :: _, [], h => by simp at h
  | f :: fs, f' :: fs', h => by
    rw [List.map_cons, List.map_cons] at h
    injection h with hhead htail
    simp only [faixaShape, Prod.mk.injEq] at hhead
    obtain ⟨hnome, hmin, hmax⟩ := hhead
    have hcp : contemPreco p f = contemPreco p f' := by
      unfold contemPreco
      rw [hmin, hmax]
    by_cases hc : contemPreco p f = true
    · rw [List.find?_cons_of_pos _ hc, List.find?_cons_of_pos _ (hcp ▸ hc)]
      rw [Option.map_some', Option.map_some', hnome]
    · rw [Bool.not_eq_true] at hc
      rw [List.find?_cons_of_neg _ (by simp [hc]),
        List.find?_cons_of_neg _ (by simp [hcp ▸ hc])]
      exact find?_shape p fs fs' htail

/-- Looking up in two tables that agree on keys and band shapes yields
band lists that agree on shapes. -/
theorem lookup_shape (a : String) :
    ∀ (t t' : List (String × List Faixa)),
      t.map (fun e => (e.1, e.2.map faixaShape)) =
        t'.map (fun e => (e.1, e.2.map faixaShape)) →
      Option.map (List.map faixaShape) (t.lookup a) =
        Option.map (List.map faixaShape) (t'.lookup a)
  | [], [], _ => rfl
  | [], _ :: _, h => by simp at h
  | _ :: _, [], h => by simp at h
  | (k, v) :: t, (k', v') :: t', h => by
    rw [List.map_cons, List.map_cons] at h
    injection h with hhead htail
    simp only [Prod.mk.injEq] at hhead
    obtain ⟨hk, hv⟩ := hhead
    rw [List.lookup, List.lookup, hk]
    by_cases hak : (a == k') = true
    · rw [hak]
      simpa using hv
    · rw [Bool.not_eq_true] at hak
      rw [hak]
      exact lookup_shape a t t' htail

/-- C10: the row classifier is interval-based, not membership-based — its
result depends only on each band's name, `min` and `max`; two band tables
that agree on those (with arbitrary, even empty, member lists) classify
every row identically, so a price inside a band's interval is classified
into it even if it was never an observed member. -/
theorem C10_theorem (t t' : List (String × List Faixa)) (a : String) (p : ℚ)
    (h : t.map (fun e => (e.1, e.2.map faixaShape)) =
      t'.map (fun e => (e.1, e.2.map faixaShape))) :
    obter_faixa_preco t a p = obter_faixa_preco t' a p := by
  have hl := lookup_shape a t t' h
  cases hlt : t.lookup a with
  | none =>
    rw [hlt] at hl
    cases hlt' : t'.lookup a with
    | none => rw [obter_lookup_none p hlt, obter_lookup_none p hlt']
    | some fs' => rw [hlt'] at hl; simp at hl
  | some fs =>
    rw [hlt] at hl
    cases hlt' : t'.lookup a with
    | none => rw [hlt'] at hl; simp at hl
    | some fs' =>
      rw [hlt'] at hl
      simp only [Option.map_some', Option.some.injEq] at hl
      have hf := find?_shape p fs fs' hl
      cases hfs : fs.find? (contemPreco p) with
      | none =>
        rw [hfs] at hf
        cases hfs' : fs'.find? (contemPreco p) with
        | none => rw [obter_notfound hlt hfs, obter_notfound hlt' hfs']
        | some g => rw [hfs'] at hf; simp at hf
      | some g =>
        rw [hfs] at hf
        cases hfs' : fs'.find? (contemPreco p) with
        | none => rw [hfs'] at hf; simp at hf
        | some g' =>
          rw [hfs'] at hf
          simp only [Option.map_some', Option.some.injEq] at hf
          rw [obter_found hlt hfs, obter_found hlt' hfs', hf]

/-- C10 witness: price `7` lies in the interval `[3, 9]` of `Faixa 1` but is
not among its recorded members; emptying the member list does not change
the classification, which returns `Faixa 1`'s name either way. -/
theorem C10_witness :
    obter_faixa_preco [("A", [⟨"Faixa 1", 3, 9, [4, 5]⟩])] "A" 7 =
      obter_faixa_preco [("A", [⟨"Faixa 1", 3, 9, []⟩])] "A" 7 :=
  C10_theorem [("A", [⟨"Faixa 1", 3, 9, [4, 5]⟩])]
    [("A", [⟨"Faixa 1", 3, 9, []⟩])] "A" 7 rfl

instance : Std.Antisymm (fun a b : ℚ => a ≤ b) :=
  ⟨@fun _ _ h1 h2 => le_antisymm h1 h2⟩

/-- Python `min` of a non-empty list: the least element. -/
theorem minQ_eq_some_iff {a : ℚ} {xs : List ℚ} :
    xs.min? = some a ↔ a ∈ xs ∧ ∀ b ∈ xs, a ≤ b :=
  List.min?_eq_some_iff (fun _ => le_refl _) (fun _ _ => min_choice _ _)
    (fun _ _ _ => le_min_iff)

/-- Python `max` of a non-empty list: the greatest element. -/
theorem maxQ_eq_some_iff {a : ℚ} {xs : List ℚ} :
    xs.max? = some a ↔ a ∈ xs ∧ ∀ b ∈ xs, b ≤ a :=
  List.max?_eq_some_iff (fun _ => le_refl _) (fun _ _ => max_choice _ _)
    (fun _ _ _ => max_le_iff)

/-- `min` of a list depends only on its multiset of elements. -/
theorem min?_perm {l₁ l₂ : List ℚ} (h : l₁.Perm l₂) : l₁.min? = l₂.min? := by
  cases h₁ : l₁.min? with
  | none =>
    rw [List.min?_eq_none_iff] at h₁
    subst h₁
    rw [List.min?_eq_none_iff.mpr h.symm.eq_nil]
  | some m =>
    rw [minQ_eq_some_iff] at h₁
    exact (minQ_eq_some_iff.mpr
      ⟨h.mem_iff.mp h₁.1, fun b hb => h₁.2 b (h.mem_iff.mpr hb)⟩).symm

/-- `max` of a list depends only on its multiset of elements. -/
theorem max?_perm {l₁ l₂ : List ℚ} (h : l₁.Perm l₂) : l₁.max? = l₂.max? := by
  cases h₁ : l₁.max? with
  | none =>
    rw [List.max?_eq_none_iff] at h₁
    subst h₁
    rw [List.max?_eq_none_iff.mpr h.symm.eq_nil]
  | some m =>
    rw [maxQ_eq_some_iff] at h₁
    exact (maxQ_eq_some_iff.mpr
      ⟨h.mem_iff.mp h₁.1, fun b hb => h₁.2 b (h.mem_iff.mpr hb)⟩).symm

theorem sortQ_perm (l : List ℚ) : (sortQ l).Perm l :=
  List.perm_insertionSort _ l

theorem sortQ_sorted (l : List ℚ) : List.Sorted (· ≤ ·) (sortQ l) :=
  List.sorted_insertionSort _ l

/-- Sorting is a function of the multiset of elements: permuted inputs have
the same sorted order (so Python's `sorted(precos)` is well-defined on the
price multiset). -/
theorem sortQ_eq_of_perm {l₁ l₂ : List ℚ} (h : l₁.Perm l₂) :
    sortQ l₁ = sortQ l₂ :=
  List.eq_of_perm_of_sorted ((sortQ_perm l₁).trans (h.trans (sortQ_perm l₂).symm))
    (sortQ_sorted l₁) (sortQ_sorted l₂)

/-- Equation: an already-claimed anchor is skipped. -/
theorem smallGo_cons_mem {precos claimed : List ℚ} {k : ℕ} {v : ℚ}
    {rest : List ℚ} (h : v ∈ claimed) :
    smallGo precos claimed k (v :: rest) = smallGo precos claimed k rest := by
  rw [smallGo, if_pos h]

/-- Equation: an unclaimed zero anchor raises (`none`). -/
theorem smallGo_cons_zero {precos claimed : List ℚ} {k : ℕ} {rest : List ℚ}
    (hv : (0 : ℚ) ∉ claimed) :
    smallGo precos claimed k ((0 : ℚ) :: rest) = none := by
  rw [smallGo, if_neg hv, if_pos rfl]

/-- Equation: an unclaimed non-zero anchor with an empty similarity set is
skipped. -/
theorem smallGo_cons_empty {precos claimed : List ℚ} {k : ℕ} {v : ℚ}
    {rest : List ℚ} (hv : v ∉ claimed) (hz : v ≠ 0)
    (hE : (precos.filter (similar v)).isEmpty = true) :
    smallGo precos claimed k (v :: rest) = smallGo precos claimed k rest := by
  rw [smallGo, if_neg hv, if_neg hz]
  simp only [hE, if_true]

/-- Equation: an unclaimed non-zero anchor with a non-empty similarity set
emits a band and claims the set. -/
theorem smallGo_cons_band {precos claimed : List ℚ} {k : ℕ} {v : ℚ}
    {rest : List ℚ} {mn mx : ℚ} (hv : v ∉ claimed) (hz : v ≠ 0)
    (hE : (precos.filter (similar v)).isEmpty = false)
    (hm : (precos.filter (similar v)).min? = some mn)
    (hx : (precos.filter (similar v)).max? = some mx) :
    smallGo precos claimed k (v :: rest) =
      match smallGo precos (claimed ++ precos.filter (similar v)) (k + 1) rest with
      | some fs =>
        some (⟨"Faixa " ++ toString (k + 1), mn, mx,
          precos.filter (similar v)⟩ :: fs)
      | none => none := by
  rw [smallGo, if_neg hv, if_neg hz]
  simp only [hE, Bool.false_eq_true, if_false, hm, hx]

/-- Bands match when they agree on name, `min` and `max` and their member
lists carry the same multiset. -/
def FaixaMatch (f g : Faixa) : Prop :=
  f.nome = g.nome ∧ f.min = g.min ∧ f.max = g.max ∧ f.valores.Perm g.valores

/-- Two band-builder outcomes match when both raise, or both return band
sequences that match band by band. -/
def OptFaixasMatch : Option (List Faixa) → Option (List Faixa) → Prop
  | none, none => True
  | some fs₁, some fs₂ => List.Forall₂ FaixaMatch fs₁ fs₂
  | _, _ => False

/-- The small-sample loop is invariant (up to `FaixaMatch`) under permuting
the original sample and the claimed set, for the same anchor list. -/
theorem smallGo_perm (l : List ℚ) :
    ∀ {precos₁ precos₂ claimed₁ claimed₂ : List ℚ} (k : ℕ),
      precos₁.Perm precos₂ → claimed₁.Perm claimed₂ →
      OptFaixasMatch (smallGo precos₁ claimed₁ k l)
        (smallGo precos₂ claimed₂ k l) := by
  induction l with
  | nil =>
    intro p₁ p₂ c₁ c₂ k hp hc
    exact List.Forall₂.nil
  | cons v rest ih =>
    intro p₁ p₂ c₁ c₂ k hp hc
    have hsims : (p₁.filter (similar v)).Perm (p₂.filter (similar v)) :=
      hp.filter _
    by_cases hv : v ∈ c₁
    · rw [smallGo_cons_mem hv, smallGo_cons_mem (hc.mem_iff.mp hv)]
      exact ih k hp hc
    · have hv₂ : v ∉ c₂ := fun hx => hv (hc.mem_iff.mpr hx)
      by_cases hz : v = 0
      · subst hz
        rw [smallGo_cons_zero hv, smallGo_cons_zero hv₂]
        exact trivial
      · by_cases hE : (p₁.filter (similar v)).isEmpty = true
        · have hE₂ : (p₂.filter (similar v)).isEmpty = true := by
            rw [List.isEmpty_iff] at hE ⊢
            exact (hE ▸ hsims).symm.eq_nil
          rw [smallGo_cons_empty hv hz hE, smallGo_cons_empty hv₂ hz hE₂]
          exact ih k hp hc
        · rw [Bool.not_eq_true] at hE
          have hE₂ : (p₂.filter (similar v)).isEmpty = false := by
            rw [Bool.eq_false_iff] at hE ⊢
            intro hx
            rw [List.isEmpty_iff] at hx
            exact hE (List.isEmpty_iff.mpr (hx ▸ hsims).eq_nil)
          have hmin := min?_perm hsims
          have hmax := max?_perm hsims
          cases hm : (p₁.filter (similar v)).min? with
          | none =>
            rw [List.min?_eq_none_iff] at hm
            rw [List.isEmpty_iff.mpr hm] at hE
            exact absurd hE (by simp)
          | some mn =>
            cases hx : (p₁.filter (similar v)).max? with
            | none =>
              rw [List.max?_eq_none_iff] at hx
              rw [List.isEmpty_iff.mpr hx] at hE
              exact absurd hE (by simp)
            | some mx =>
              have hm₂ : (p₂.filter (similar v)).min? = some mn := hmin ▸ hm
              have hx₂ : (p₂.filter (similar v)).max? = some mx := hmax ▸ hx
              rw [smallGo_cons_band hv hz hE hm hx,
                smallGo_cons_band hv₂ hz hE₂ hm₂ hx₂]
              have ihrec := ih (k + 1) hp (hc.append hsims)
              cases hr₁ : smallGo p₁ (c₁ ++ p₁.filter (similar v)) (k + 1) rest with
              | none =>
                rw [hr₁] at ihrec
                cases hr₂ : smallGo p₂ (c₂ ++ p₂.filter (similar v)) (k + 1) rest with
                | none => exact trivial
                | some fs₂ => rw [hr₂] at ihrec; exact ihrec.elim
              | some fs₁ =>
                rw [hr₁] at ihrec
                cases hr₂ : smallGo p₂ (c₂ ++ p₂.filter (similar v)) (k + 1) rest with
                | none => rw [hr₂] at ihrec; exact ihrec.elim
                | some fs₂ =>
                  rw [hr₂] at ihrec
                  exact List.Forall₂.cons ⟨rfl, rfl, rfl, hsims⟩ ihrec

/-- C9: the band builder is deterministic over the price multiset — on two
price lists that are permutations of each other (same agent) it either
raises on both or returns band sequences of the same length agreeing band
by band on name (hence index), `min` and `max` (hence on the derived
`descricao`/`label`, which are functions of `min`/`max` alone), with member
lists carrying the same multiset. -/
theorem C9_theorem (precos₁ precos₂ : List ℚ) (agente : String)
    (hp : precos₁.Perm precos₂) :
    OptFaixasMatch (criar_faixas_preco precos₁ agente)
      (criar_faixas_preco precos₂ agente) := by
  have hlen := hp.length_eq
  unfold criar_faixas_preco
  by_cases h1 : precos₁.length ≤ 1
  · rw [if_pos h1, if_pos (hlen ▸ h1)]
    rw [min?_perm hp, max?_perm hp]
    cases precos₂.min? with
    | none => exact trivial
    | some mn =>
      cases precos₂.max? with
      | none => exact trivial
      | some mx => exact List.Forall₂.cons ⟨rfl, rfl, rfl, hp⟩ List.Forall₂.nil
  · rw [if_neg h1, if_neg (fun hh => h1 (hlen.symm ▸ hh))]
    rw [sortQ_eq_of_perm hp]
    by_cases h10 : precos₁.length ≤ 10
    · rw [if_pos h10, if_pos (hlen ▸ h10)]
      exact smallGo_perm (sortQ precos₂) 0 hp (List.Perm.refl [])
    · rw [if_neg h10, if_neg (fun hh => h10 (hlen.symm ▸ hh))]
      cases sortQ precos₂ with
      | nil => exact trivial
      | cons p₀ rest =>
        exact List.forall₂_same.mpr fun f _ => ⟨rfl, rfl, rfl, List.Perm.refl _⟩

/-- C9 witness: the permuted lists `[3, 1]` and `[1, 3]` produce matching
band sequences. -/
theorem C9_witness :
    (([3, 1] : List ℚ).Perm [1, 3]) ∧
    OptFaixasMatch (criar_faixas_preco [3, 1] "B")
      (criar_faixas_preco [1, 3] "B") :=
  ⟨List.Perm.swap 1 3 [], C9_theorem [3, 1] [1, 3] "B" (List.Perm.swap 1 3 [])⟩

theorem headD_mem {l : List ℚ} (h : l ≠ []) : l.headD 0 ∈ l := by
  cases l with
  | nil => exact absurd rfl h
  | cons x xs => exact List.mem_cons_self x xs

theorem getLastD_cons_cons (x y : ℚ) (t : List ℚ) :
    (x :: y :: t).getLastD 0 = (y :: t).getLastD 0 := by
  rw [List.getLastD_cons 0 x (y :: t), List.getLastD_cons x y t,
    List.getLastD_cons 0 y t]

theorem getLastD_mem {l : List ℚ} (h : l ≠ []) : l.getLastD 0 ∈ l := by
  cases l with
  | nil => exact absurd rfl h
  | cons x xs =>
    rw [List.getLastD_cons 0 x xs]
    exact List.getLastD_mem_cons xs x

theorem getLastD_append_single (a : ℚ) (l : List ℚ) (d : ℚ) :
    (l ++ [a]).getLastD d = a :=
  List.getLastD_concat d a l

/-- In a `≤`-chained list every member lies between the first and the last
element. -/
theorem chain_le_bounds :
    ∀ {c : List ℚ}, List.Chain' (· ≤ ·) c → ∀ {p : ℚ}, p ∈ c →
      c.headD 0 ≤ p ∧ p ≤ c.getLastD 0
  | [], _, _, hp => absurd hp (List.not_mem_nil _)
  | [x], _, p, hp => by
    rw [List.mem_singleton] at hp
    subst hp
    exact ⟨le_refl _, le_refl _⟩
  | x :: y :: t, hc, p, hp => by
    rw [List.chain'_cons] at hc
    rw [getLastD_cons_cons]
    rcases List.mem_cons.mp hp with hpx | hpm
    · subst hpx
      refine ⟨le_refl _, ?_⟩
      have hy := chain_le_bounds hc.2 (List.mem_cons_self y t)
      exact le_trans hc.1 hy.2
    · have hb := chain_le_bounds hc.2 hpm
      exact ⟨le_trans hc.1 hb.1, hb.2⟩

/-- No generated band name collides with the sentinel. -/
theorem faixa_ne_sem (s : String) : ("Faixa " ++ s) ≠ "Sem Faixa" := by
  intro h
  have h2 : ("Faixa " ++ s).data.head? = ("Sem Faixa" : String).data.head? := by
    rw [h]
  rw [String.data_append] at h2
  rw [show ("Faixa " : String).data = 'F' :: ('a' :: 'i' :: 'x' :: 'a' :: ' ' :: []) from rfl] at h2
  rw [show ("Sem Faixa" : String).data = 'S' :: ('e' :: 'm' :: ' ' :: 'F' :: 'a' :: 'i' :: 'x' :: 'a' :: []) from rfl] at h2
  rw [List.cons_append, List.head?_cons, List.head?_cons] at h2
  exact absurd (Option.some.injEq _ _ ▸ h2) (by decide)

theorem faixa_unica_ne_sem : ("Faixa Única" : String) ≠ "Sem Faixa" := by decide

theorem lookup_single (a : String) (fs : List Faixa) :
    ([(a, fs)] : List (String × List Faixa)).lookup a = some fs := by
  simp [List.lookup]

/-- Every value is similar to itself (the anchor case of the 20% filter). -/
theorem similar_self (v : ℚ) : similar v v = true := by
  simp only [similar, decide_eq_true_eq, sub_self]
  rw [show absQ 0 = 0 from rfl, zero_div]
  norm_num

/-- Equation: the `n == 1` branch of `criar_faixas_preco`. -/
theorem criar_singleton (x : ℚ) (a : String) :
    criar_faixas_preco [x] a = some [⟨"Faixa Única", x, x, [x]⟩] := rfl

/-- Equation: the small-sample branch of `criar_faixas_preco`. -/
theorem criar_small {precos : List ℚ} (a : String)
    (h1 : ¬ precos.length ≤ 1) (h10 : precos.length ≤ 10) :
    criar_faixas_preco precos a = smallGo precos [] 0 (sortQ precos) := by
  simp only [criar_faixas_preco]
  rw [if_neg h1, if_pos h10]

/-- Equation: the large-sample branch of `criar_faixas_preco`. -/
theorem criar_large {precos : List ℚ} (a : String)
    (h1 : ¬ precos.length ≤ 1) (h10 : ¬ precos.length ≤ 10)
    {p₀ : ℚ} {rest : List ℚ} (hs : sortQ precos = p₀ :: rest) :
    criar_faixas_preco precos a =
      some (nomeFaixas 0 (gapSplit p₀ [p₀] rest)) := by
  simp only [criar_faixas_preco]
  rw [if_neg h1, if_neg h10, hs]

/-- The small-sample loop never raises on positive anchors, names every
band "Faixa i", and covers every not-yet-claimed anchor-list element with a
band whose interval contains it. -/
theorem smallGo_cover (l : List ℚ) :
    ∀ (precos claimed : List ℚ) (k : ℕ),
      (∀ x ∈ l, x ∈ precos) → (∀ x ∈ l, 0 < x) →
      ∃ fs, smallGo precos claimed k l = some fs ∧
        (∀ f ∈ fs, ∃ i : ℕ, f.nome = "Faixa " ++ toString i) ∧
        (∀ p, p ∈ l → p ∉ claimed →
          ∃ f ∈ fs, p ∈ f.valores ∧ f.min ≤ p ∧ p ≤ f.max) := by
  induction l with
  | nil =>
    intro precos claimed k _ _
    exact ⟨[], rfl, fun f hf => absurd hf (List.not_mem_nil f),
      fun p hp _ => absurd hp (List.not_mem_nil p)⟩
  | cons v rest ih =>
    intro precos claimed k hsub hpos
    have hsub' : ∀ x ∈ rest, x ∈ precos :=
      fun x hx => hsub x (List.mem_cons_of_mem v hx)
    have hpos' : ∀ x ∈ rest, 0 < x :=
      fun x hx => hpos x (List.mem_cons_of_mem v hx)
    have hvpos : 0 < v := hpos v (List.mem_cons_self v rest)
    have hvz : v ≠ 0 := ne_of_gt hvpos
    by_cases hv : v ∈ claimed
    · obtain ⟨fs, heq, hnames, hcov⟩ := ih precos claimed k hsub' hpos'
      refine ⟨fs, by rw [smallGo_cons_mem hv, heq], hnames, ?_⟩
      intro p hp hpc
      rcases List.mem_cons.mp hp with rfl | hpm
      · exact absurd hv hpc
      · exact hcov p hpm hpc
    · have hvsims : v ∈ precos.filter (similar v) :=
        List.mem_filter.mpr ⟨hsub v (List.mem_cons_self v rest), similar_self v⟩
      have hne : precos.filter (similar v) ≠ [] := fun hx => by
        rw [hx] at hvsims
        exact List.not_mem_nil v hvsims
      have hE : (precos.filter (similar v)).isEmpty = false := by
        rw [Bool.eq_false_iff]
        intro hx
        exact hne (List.isEmpty_iff.mp hx)
      obtain ⟨mn, hm⟩ : ∃ mn, (precos.filter (similar v)).min? = some mn := by
        cases hmm : (precos.filter (similar v)).min? with
        | none => exact absurd (List.min?_eq_none_iff.mp hmm) hne
        | some mn => exact ⟨mn, rfl⟩
      obtain ⟨mx, hx⟩ : ∃ mx, (precos.filter (similar v)).max? = some mx := by
        cases hmm : (precos.filter (similar v)).max? with
        | none => exact absurd (List.max?_eq_none_iff.mp hmm) hne
        | some mx => exact ⟨mx, rfl⟩
      obtain ⟨fs', heq', hnames', hcov'⟩ :=
        ih precos (claimed ++ precos.filter (similar v)) (k + 1) hsub' hpos'
      refine ⟨⟨"Faixa " ++ toString (k + 1), mn, mx,
        precos.filter (similar v)⟩ :: fs', ?_, ?_, ?_⟩
      · rw [smallGo_cons_band hv hvz hE hm hx, heq']
      · intro f hf
        rcases List.mem_cons.mp hf with rfl | hfm
        · exact ⟨k + 1, rfl⟩
        · exact hnames' f hfm
      · intro p hp hpc
        by_cases hps : p ∈ precos.filter (similar v)
        · exact ⟨⟨"Faixa " ++ toString (k + 1), mn, mx, precos.filter (similar v)⟩,
            List.mem_cons_self _ _, hps,
            (minQ_eq_some_iff.mp hm).2 p hps, (maxQ_eq_some_iff.mp hx).2 p hps⟩
        · have hpv : p ≠ v := fun h => hps (h ▸ hvsims)
          have hpm : p ∈ rest := (List.mem_cons.mp hp).resolve_left hpv
          have hpc' : p ∉ claimed ++ precos.filter (similar v) := by
            rw [List.mem_append]
            rintro (h | h)
            exacts [hpc h, hps h]
          obtain ⟨f, hf, hfv, hf1, hf2⟩ := hcov' p hpm hpc'
          exact ⟨f, List.mem_cons_of_mem _ hf, hfv, hf1, hf2⟩

/-- The runs produced by the gap walk concatenate back to the walked list:
no value is lost or duplicated. -/
theorem gapSplit_flatten (l : List ℚ) :
    ∀ (prev : ℚ) (cur : List ℚ), (gapSplit prev cur l).flatten = cur ++ l := by
  induction l with
  | nil =>
    intro prev cur
    rw [gapSplit]
    simp
  | cons c rest ih =>
    intro prev cur
    rw [gapSplit]
    by_cases h : 1 < gapRel prev c
    · rw [if_pos h, List.flatten_cons, ih c [c]]
      simp
    · rw [if_neg h, ih c (cur ++ [c])]
      simp

/-- The first run produced by the gap walk extends the open run. -/
theorem gapSplit_head (l : List ℚ) :
    ∀ (prev : ℚ) (cur : List ℚ),
      ∃ ext chs, gapSplit prev cur l = (cur ++ ext) :: chs := by
  induction l with
  | nil =>
    intro prev cur
    refine ⟨[], [], ?_⟩
    rw [gapSplit]
    simp
  | cons c rest ih =>
    intro prev cur
    rw [gapSplit]
    by_cases h : 1 < gapRel prev c
    · rw [if_pos h]
      refine ⟨[], gapSplit c [c] rest, ?_⟩
      simp
    · rw [if_neg h]
      obtain ⟨ext, chs, heq⟩ := ih c (cur ++ [c])
      refine ⟨[c] ++ ext, chs, ?_⟩
      rw [heq, List.append_assoc]

/-- Invariants of the gap walk: every run is non-empty, sorted, and has no
internal relative gap above `1`; and consecutive runs are separated by a
relative gap above `1` (measured from the last value of the earlier run to
the first value of the later run). -/
theorem gapSplit_master (l : List ℚ) :
    ∀ (prev : ℚ) (cur : List ℚ),
      (∀ x ∈ cur ++ l, 0 < x) → List.Chain' (· ≤ ·) (cur ++ l) →
      cur ≠ [] → cur.getLastD 0 = prev →
      List.Chain' (fun a b => (b - a) / a ≤ 1) cur →
      (∀ c ∈ gapSplit prev cur l,
        c ≠ [] ∧ List.Chain' (· ≤ ·) c ∧
        List.Chain' (fun a b => (b - a) / a ≤ 1) c) ∧
      List.Chain' (fun c d => 1 < (d.headD 0 - c.getLastD 0) / c.getLastD 0)
        (gapSplit prev cur l) := by
  induction l with
  | nil =>
    intro prev cur hpos hch hne _ hgap
    rw [gapSplit]
    constructor
    · intro c hc
      rw [List.mem_singleton] at hc
      subst hc
      exact ⟨hne, by simpa using hch, hgap⟩
    · exact List.chain'_singleton _
  | cons atual rest ih =>
    intro prev cur hpos hch hne hlast hgap
    have hprevpos : 0 < prev :=
      hlast ▸ hpos _ (List.mem_append_left _ (getLastD_mem hne))
    have hgaprel : gapRel prev atual = (atual - prev) / prev := if_pos hprevpos
    have hchsplit := List.chain'_append.mp hch
    rw [gapSplit]
    by_cases hsp : 1 < gapRel prev atual
    · rw [if_pos hsp]
      have hpos' : ∀ x ∈ [atual] ++ rest, 0 < x := fun x hx =>
        hpos x (List.mem_append_right cur (by simpa using hx))
      have hch' : List.Chain' (· ≤ ·) ([atual] ++ rest) := by
        simpa using hchsplit.2.1
      obtain ⟨ihP, ihC⟩ := ih atual [atual] hpos' hch' (by simp) rfl
        (List.chain'_singleton _)
      constructor
      · intro c hc
        rcases List.mem_cons.mp hc with rfl | hcm
        · exact ⟨hne, hchsplit.1, hgap⟩
        · exact ihP c hcm
      · rw [List.chain'_cons']
        refine ⟨?_, ihC⟩
        intro b hb
        obtain ⟨ext, chs, heq⟩ := gapSplit_head rest atual [atual]
        rw [heq, List.head?_cons, Option.mem_def] at hb
        injection hb with hb
        subst hb
        rw [show ([atual] ++ ext).headD 0 = atual from rfl, hlast]
        rw [hgaprel] at hsp
        exact hsp
    · rw [if_neg hsp]
      have hassoc : (cur ++ [atual]) ++ rest = cur ++ atual :: rest := by simp
      have hpos' : ∀ x ∈ (cur ++ [atual]) ++ rest, 0 < x := by
        rw [hassoc]
        exact hpos
      have hch' : List.Chain' (· ≤ ·) ((cur ++ [atual]) ++ rest) := by
        rw [hassoc]
        exact hch
      have hgaple : (atual - prev) / prev ≤ 1 := by
        rw [hgaprel] at hsp
        exact not_lt.mp hsp
      have hgap' : List.Chain' (fun a b => (b - a) / a ≤ 1) (cur ++ [atual]) := by
        rw [List.chain'_append]
        refine ⟨hgap, List.chain'_singleton _, ?_⟩
        intro x hx y hy
        rw [List.head?_cons, Option.mem_def] at hy
        injection hy with hy
        subst hy
        cases hcur : cur.getLast? with
        | none =>
          rw [hcur] at hx
          exact absurd hx (by simp)
        | some z =>
          rw [hcur, Option.mem_def] at hx
          injection hx with hx
          have hz : z = prev := by
            rw [← hlast, List.getLastD_eq_getLast?, hcur]
            rfl
          rw [← hx, hz]
          exact hgaple
      exact ih atual (cur ++ [atual]) hpos' hch' (by simp)
        (getLastD_append_single atual cur 0) hgap'

/-- Every band built from runs is the band of one of the runs. -/
theorem nomeFaixas_mem : ∀ (chs : List (List ℚ)) (k : ℕ) (f : Faixa),
    f ∈ nomeFaixas k chs →
    ∃ (i : ℕ) (c : List ℚ), c ∈ chs ∧
      f = ⟨"Faixa " ++ toString i, c.headD 0, c.getLastD 0, c⟩
  | [], _, f, hf => absurd (by
      rw [nomeFaixas] at hf
      exact hf) (List.not_mem_nil f)
  | c :: cs, k, f, hf => by
    rw [nomeFaixas] at hf
    rcases List.mem_cons.mp hf with rfl | hfm
    · exact ⟨k + 1, c, List.mem_cons_self _ _, rfl⟩
    · obtain ⟨i, c', hc', heq⟩ := nomeFaixas_mem cs (k + 1) f hfm
      exact ⟨i, c', List.mem_cons_of_mem _ hc', heq⟩

/-- Every run yields a band carrying it as member list with the run's first
and last values as endpoints. -/
theorem nomeFaixas_of_chunk : ∀ (chs : List (List ℚ)) (k : ℕ) (c : List ℚ),
    c ∈ chs →
    ∃ f, f ∈ nomeFaixas k chs ∧ f.valores = c ∧
      f.min = c.headD 0 ∧ f.max = c.getLastD 0
  | [], _, c, hc => absurd hc (List.not_mem_nil c)
  | c' :: cs, k, c, hc => by
    rw [nomeFaixas]
    rcases List.mem_cons.mp hc with rfl | hcm
    · exact ⟨_, List.mem_cons_self _ _, rfl, rfl, rfl⟩
    · obtain ⟨f, hf, h1, h2, h3⟩ := nomeFaixas_of_chunk cs (k + 1) c hcm
      exact ⟨f, List.mem_cons_of_mem _ hf, h1, h2, h3⟩

/-- The member lists of the built bands are exactly the runs, in order. -/
theorem nomeFaixas_map_valores : ∀ (chs : List (List ℚ)) (k : ℕ),
    (nomeFaixas k chs).map Faixa.valores = chs
  | [], _ => rfl
  | c :: cs, k => by
    rw [nomeFaixas, List.map_cons, nomeFaixas_map_valores cs (k + 1)]

/-- A chain over runs transfers to the corresponding chain over bands when
the band relation only looks at the run data. -/
theorem nomeFaixas_chain {S : List ℚ → List ℚ → Prop} {R : Faixa → Faixa → Prop}
    (hSR : ∀ (i j : ℕ) (c d : List ℚ), S c d →
      R ⟨"Faixa " ++ toString i, c.headD 0, c.getLastD 0, c⟩
        ⟨"Faixa " ++ toString j, d.headD 0, d.getLastD 0, d⟩) :
    ∀ (chs : List (List ℚ)) (k : ℕ), List.Chain' S chs →
      List.Chain' R (nomeFaixas k chs)
  | [], _, _ => by
    rw [nomeFaixas]
    exact List.chain'_nil
  | c :: cs, k, hch => by
    rw [nomeFaixas, List.chain'_cons']
    constructor
    · intro b hb
      cases cs with
      | nil =>
        rw [nomeFaixas] at hb
        simp at hb
      | cons d t =>
        rw [nomeFaixas, List.head?_cons, Option.mem_def] at hb
        injection hb with hb
        subst hb
        rw [List.chain'_cons] at hch
        exact hSR (k + 1) (k + 2) c d hch.1
    · cases cs with
      | nil =>
        rw [nomeFaixas]
        exact List.chain'_nil
      | cons d t =>
        exact nomeFaixas_chain hSR (d :: t) (k + 1) (List.chain'_cons.mp hch).2

/-- Between-run gaps above `1` force strictly increasing run heads. -/
theorem chunks_head_lt : ∀ (chs : List (List ℚ)),
    (∀ c ∈ chs, c ≠ [] ∧ List.Chain' (· ≤ ·) c ∧ ∀ x ∈ c, 0 < x) →
    List.Chain' (fun c d => 1 < (d.headD 0 - c.getLastD 0) / c.getLastD 0) chs →
    List.Chain' (fun c d => c.headD 0 < d.headD 0) chs
  | [], _, _ => List.chain'_nil
  | [c], _, _ => List.chain'_singleton _
  | c :: d :: t, hmem, hch => by
    rw [List.chain'_cons] at hch ⊢
    obtain ⟨hcne, hcle, hcpos⟩ := hmem c (List.mem_cons_self _ _)
    have hL : 0 < c.getLastD 0 := hcpos _ (getLastD_mem hcne)
    have hhd : c.headD 0 ≤ c.getLastD 0 :=
      (chain_le_bounds hcle (headD_mem hcne)).2
    have h2 : c.getLastD 0 < d.headD 0 - c.getLastD 0 := (one_lt_div hL).mp hch.1
    refine ⟨by linarith, ?_⟩
    exact chunks_head_lt (d :: t)
      (fun x hx => hmem x (List.mem_cons_of_mem _ hx)) hch.2

/-- A classifier query against a table whose bands are all named by the
builder, one of which contains the price, never returns the sentinel. -/
theorem obter_ne_sem {agente : String} {fs : List Faixa} {p : ℚ}
    (hnames : ∀ f ∈ fs, f.nome = "Faixa Única" ∨
      ∃ i : ℕ, f.nome = "Faixa " ++ toString i)
    (hex : ∃ f ∈ fs, f.min ≤ p ∧ p ≤ f.max) :
    obter_faixa_preco [(agente, fs)] agente p ≠ "Sem Faixa" := by
  have hsome : (fs.find? (contemPreco p)).isSome := by
    rw [List.find?_isSome]
    obtain ⟨f, hf, h1, h2⟩ := hex
    exact ⟨f, hf, contemPreco_eq_true.mpr ⟨h1, h2⟩⟩
  cases hfind : fs.find? (contemPreco p) with
  | none =>
    rw [hfind] at hsome
    simp at hsome
  | some f' =>
    rw [obter_found (lookup_single agente fs) hfind]
    have hf'mem : f' ∈ fs := List.mem_of_find?_eq_some hfind
    rcases hnames f' hf'mem with h | ⟨i, h⟩
    · rw [h]
      exact faixa_unica_ne_sem
    · rw [h]
      exact faixa_ne_sem _

/-- C4 (amended): for every agent and non-empty list of positive prices the
band builder succeeds, every observed price is a member of at least one
band whose interval contains it (a price may belong to two bands on the
small-sample path), and consequently classifying an original row never
yields the "Sem Faixa" sentinel. -/
theorem C4_amended_theorem (precos : List ℚ) (agente : String)
    (hne : precos ≠ []) (hpos : ∀ p ∈ precos, 0 < p) :
    ∃ fs, criar_faixas_preco precos agente = some fs ∧
      ∀ p ∈ precos,
        (∃ f ∈ fs, p ∈ f.valores ∧ f.min ≤ p ∧ p ≤ f.max) ∧
        obter_faixa_preco [(agente, fs)] agente p ≠ "Sem Faixa" := by
  by_cases h1 : precos.length ≤ 1
  · cases precos with
    | nil => exact absurd rfl hne
    | cons x xs =>
      cases xs with
      | nil =>
        refine ⟨[⟨"Faixa Única", x, x, [x]⟩], criar_singleton x agente, ?_⟩
        intro p hp
        rw [List.mem_singleton] at hp
        subst hp
        refine ⟨⟨⟨"Faixa Única", p, p, [p]⟩, List.mem_singleton.mpr rfl,
          List.mem_singleton.mpr rfl, le_refl p, le_refl p⟩, ?_⟩
        refine obter_ne_sem ?_
          ⟨⟨"Faixa Única", p, p, [p]⟩, List.mem_singleton.mpr rfl,
            le_refl p, le_refl p⟩
        intro f hf
        rw [List.mem_singleton] at hf
        subst hf
        exact Or.inl rfl
      | cons y t =>
        exfalso
        simp only [List.length_cons] at h1
        omega
  · by_cases h10 : precos.length ≤ 10
    · obtain ⟨fs, heq, hnames, hcov⟩ := smallGo_cover (sortQ precos) precos [] 0
        (fun x hx => (sortQ_perm precos).subset hx)
        (fun x hx => hpos x ((sortQ_perm precos).subset hx))
      refine ⟨fs, by rw [criar_small agente h1 h10, heq], ?_⟩
      intro p hp
      have hp' : p ∈ sortQ precos := ((sortQ_perm precos).mem_iff).mpr hp
      obtain ⟨f, hf, hfv, hfl, hfr⟩ := hcov p hp' (List.not_mem_nil p)
      exact ⟨⟨f, hf, hfv, hfl, hfr⟩,
        obter_ne_sem (fun g hg => Or.inr (hnames g hg)) ⟨f, hf, hfl, hfr⟩⟩
    · cases hs : sortQ precos with
      | nil =>
        exfalso
        have h0 : precos.length = 0 := by
          have hl := (sortQ_perm precos).length_eq
          rw [hs] at hl
          simpa using hl.symm
        exact h1 (by omega)
      | cons p₀ rest =>
        have hposs : ∀ x ∈ p₀ :: rest, 0 < x := by
          intro x hx
          refine hpos x ((sortQ_perm precos).subset ?_)
          rw [hs]
          exact hx
        have hsorted : List.Chain' (· ≤ ·) (p₀ :: rest) := by
          have hSorted := sortQ_sorted precos
          rw [hs] at hSorted
          exact List.chain'_iff_pairwise.mpr hSorted
        obtain ⟨hP, hC⟩ := gapSplit_master rest p₀ [p₀] (by simpa using hposs)
          (by simpa using hsorted) (by simp) rfl (List.chain'_singleton _)
        refine ⟨nomeFaixas 0 (gapSplit p₀ [p₀] rest),
          criar_large agente h1 h10 hs, ?_⟩
        intro p hp
        have hp' : p ∈ p₀ :: rest := by
          rw [← hs]
          exact ((sortQ_perm precos).mem_iff).mpr hp
        have hpflat : p ∈ (gapSplit p₀ [p₀] rest).flatten := by
          rw [gapSplit_flatten]
          simpa using hp'
        obtain ⟨c, hc, hpc⟩ := List.mem_flatten.mp hpflat
        obtain ⟨hcne, hcle, _⟩ := hP c hc
        obtain ⟨f, hfmem, hfval, hfmin, hfmax⟩ :=
          nomeFaixas_of_chunk (gapSplit p₀ [p₀] rest) 0 c hc
        have hbounds := chain_le_bounds hcle hpc
        refine ⟨⟨f, hfmem, by rw [hfval]; exact hpc,
          by rw [hfmin]; exact hbounds.1, by rw [hfmax]; exact hbounds.2⟩, ?_⟩
        refine obter_ne_sem ?_ ⟨f, hfmem, by rw [hfmin]; exact hbounds.1,
          by rw [hfmax]; exact hbounds.2⟩
        intro g hg
        obtain ⟨i, c', _, rfl⟩ :=
          nomeFaixas_mem (gapSplit p₀ [p₀] rest) 0 g hg
        exact Or.inr ⟨i, rfl⟩

/-- C4 witness at `[2, 9]`: both hypotheses hold and the covering/labelling
conclusion follows by applying the theorem. -/
theorem C4_witness :
    (([2, 9] : List ℚ) ≠ []) ∧ (∀ p ∈ ([2, 9] : List ℚ), 0 < p) ∧
    (∃ fs, criar_faixas_preco [2, 9] "W" = some fs ∧
      ∀ p ∈ ([2, 9] : List ℚ),
        (∃ f ∈ fs, p ∈ f.valores ∧ f.min ≤ p ∧ p ≤ f.max) ∧
        obter_faixa_preco [("W", fs)] "W" p ≠ "Sem Faixa") :=
  ⟨by decide, by norm_num,
    C4_amended_theorem [2, 9] "W" (by decide) (by norm_num)⟩

/-- C7: on the large-sample path (n > 10, positive prices) the band builder
succeeds; the bands' member lists are exactly the consecutive runs of the
sorted sample (they concatenate back to it); each band spans its run from
first to last value with no internal relative gap above `1`; consecutive
bands are separated by a relative gap above `1` (from the earlier band's
`max` to the later band's `min`); and the bands appear in strictly
ascending order of `min`. -/
theorem C7_theorem (precos : List ℚ) (agente : String)
    (hn : 10 < precos.length) (hpos : ∀ p ∈ precos, 0 < p) :
    ∃ fs, criar_faixas_preco precos agente = some fs ∧
      (fs.map Faixa.valores).flatten = sortQ precos ∧
      (∀ f ∈ fs, f.valores ≠ [] ∧ f.min = f.valores.headD 0 ∧
        f.max = f.valores.getLastD 0 ∧
        List.Chain' (fun a b => (b - a) / a ≤ 1) f.valores) ∧
      List.Chain' (fun f g => 1 < (g.min - f.max) / f.max) fs ∧
      List.Pairwise (fun f g => f.min < g.min) fs := by
  have h1 : ¬ precos.length ≤ 1 := by omega
  have h10 : ¬ precos.length ≤ 10 := by omega
  cases hs : sortQ precos with
  | nil =>
    exfalso
    have h0 : precos.length = 0 := by
      have hl := (sortQ_perm precos).length_eq
      rw [hs] at hl
      simpa using hl.symm
    omega
  | cons p₀ rest =>
    have hposs : ∀ x ∈ p₀ :: rest, 0 < x := by
      intro x hx
      refine hpos x ((sortQ_perm precos).subset ?_)
      rw [hs]
      exact hx
    have hsorted : List.Chain' (· ≤ ·) (p₀ :: rest) := by
      have hSorted := sortQ_sorted precos
      rw [hs] at hSorted
      exact List.chain'_iff_pairwise.mpr hSorted
    obtain ⟨hP, hC⟩ := gapSplit_master rest p₀ [p₀] (by simpa using hposs)
      (by simpa using hsorted) (by simp) rfl (List.chain'_singleton _)
    have hchunkdata : ∀ c ∈ gapSplit p₀ [p₀] rest,
        c ≠ [] ∧ List.Chain' (· ≤ ·) c ∧ ∀ x ∈ c, 0 < x := by
      intro c hc
      refine ⟨(hP c hc).1, (hP c hc).2.1, ?_⟩
      intro x hx
      have hxf : x ∈ (gapSplit p₀ [p₀] rest).flatten :=
        List.mem_flatten.mpr ⟨c, hc, hx⟩
      rw [gapSplit_flatten] at hxf
      exact hposs x (by simpa using hxf)
    refine ⟨nomeFaixas 0 (gapSplit p₀ [p₀] rest),
      criar_large agente h1 h10 hs, ?_, ?_, ?_, ?_⟩
    · rw [nomeFaixas_map_valores, gapSplit_flatten]
      simp
    · intro f hf
      obtain ⟨i, c, hc, rfl⟩ := nomeFaixas_mem (gapSplit p₀ [p₀] rest) 0 f hf
      obtain ⟨hcne, _, hcgap⟩ := hP c hc
      exact ⟨hcne, rfl, rfl, hcgap⟩
    · exact nomeFaixas_chain (fun i j c d h => h) (gapSplit p₀ [p₀] rest) 0 hC
    · have hhd := chunks_head_lt (gapSplit p₀ [p₀] rest) hchunkdata hC
      have hchainmin :
          List.Chain' (fun f g : Faixa => f.min < g.min)
            (nomeFaixas 0 (gapSplit p₀ [p₀] rest)) :=
        nomeFaixas_chain (fun i j c d h => h) (gapSplit p₀ [p₀] rest) 0 hhd
      haveI : IsTrans Faixa (fun f g : Faixa => f.min < g.min) :=
        ⟨fun a b c h1 h2 => lt_trans h1 h2⟩
      exact List.chain'_iff_pairwise.mp hchainmin

/-- C7 witness at an 11-element list (two internal gaps above 100%):
hypotheses hold and the structural conclusion follows from the theorem. -/
theorem C7_witness :
    10 < ([1, 1, 1, 1, 1, 1, 3, 3, 3, 3, 100] : List ℚ).length ∧
    (∀ p ∈ ([1, 1, 1, 1, 1, 1, 3, 3, 3, 3, 100] : List ℚ), 0 < p) ∧
    (∃ fs, criar_faixas_preco [1, 1, 1, 1, 1, 1, 3, 3, 3, 3, 100] "Y" = some fs ∧
      (fs.map Faixa.valores).flatten = sortQ [1, 1, 1, 1, 1, 1, 3, 3, 3, 3, 100] ∧
      (∀ f ∈ fs, f.valores ≠ [] ∧ f.min = f.valores.headD 0 ∧
        f.max = f.valores.getLastD 0 ∧
        List.Chain' (fun a b => (b - a) / a ≤ 1) f.valores) ∧
      List.Chain' (fun f g => 1 < (g.min - f.max) / f.max) fs ∧
      List.Pairwise (fun f g => f.min < g.min) fs) :=
  ⟨by decide, by norm_num,
    C7_theorem [1, 1, 1, 1, 1, 1, 3, 3, 3, 3, 100] "Y" (by decide) (by norm_num)⟩
